import Mathlib

/-!
Shallow embedding of the ScanRule DSL (`src/scanner.py`): tokenizer,
rule-tree builder, evaluator and named-rule registry.  Strings are modelled
as `List Char` (Python strings are sequences of code points, and offsets in
error messages are code-point indices).  Python exceptions are modelled by
`Except`; Python truthiness of the values flowing through `ScanRule.__call__`
is modelled by `truthy`.
-/

set_option autoImplicit false

/-- Operator keywords of the DSL (`ScanRule.OPERATORS`), normalized to
uppercase as the lexer yields them. -/
inductive Op where
  | AND
  | OR
  | NOT
  | FROM
deriving DecidableEq, Repr

/-- Membership in `ScanRule.BINARY_OPERATORS` (`['AND', 'OR']`). -/
def Op.isBinary : Op → Bool
  | .AND => true
  | .OR => true
  | _ => false

/-- Result of a successful `re.Pattern.search`: the span of the whole match
and `Match.groups()` — the list of capture groups, each either a matched
substring or `None` (for a group that did not participate). -/
structure MatchData where
  startPos : Nat
  endPos : Nat
  groups : List (Option (List Char))
deriving DecidableEq, Repr

/-- Model of a compiled `re.Pattern`: the regex source text together with
its leftmost-search semantics.  The search function is carried as data, so
theorems quantifying over patterns hold for arbitrary search behaviour; the
patterns produced by `reCompile` get the concrete semantics of `miniSearch`. -/
structure RePattern where
  src : List Char
  search : List Char → Option MatchData

/-- Backtick character (written via its code to keep it out of the code text). -/
def btChar : Char := '\x60'

/-- Leftmost index at which `needle` occurs as a contiguous block of `hay`,
the semantics of `re.search` for a metacharacter-free pattern. -/
def litFind (needle : List Char) : List Char → Option Nat
  | [] => if needle.isEmpty then some 0 else none
  | c :: t =>
    if needle.isPrefixOf (c :: t) then some 0
    else (litFind needle t).map (· + 1)

/-- Characters that are special in Python regex syntax. -/
def metaChars : List Char :=
  ['.', '^', '$', '*', '+', '?', '\x7b', '\x7d', '[', ']', '(', ')', '|', '\\']

/-- Tests that a regex source is a plain literal: no metacharacters, so its
`re.search` semantics is plain leftmost substring search. -/
def plainLit (src : List Char) : Bool :=
  src.all (fun c => !(metaChars.contains c))

/-- Search semantics of Python `re` restricted to the fragment used in this
development: a metacharacter-free literal (zero capture groups, evidence is
the whole match), or a single pair of parentheses around such a literal (one
capture group).  Sources outside the fragment never match; no theorem below
depends on their behaviour. -/
def miniSearch (src : List Char) (content : List Char) : Option MatchData :=
  match src with
  | '(' :: rest =>
    if rest.getLast? = some ')' && plainLit rest.dropLast then
      let lit := rest.dropLast
      (litFind lit content).map (fun i => ⟨i, i + lit.length, [some lit]⟩)
    else none
  | _ =>
    if plainLit src then
      (litFind src content).map (fun i => ⟨i, i + src.length, []⟩)
    else none

/-- Model of `re.compile` applied to the source of a backtick literal. -/
def reCompile (src : List Char) : RePattern :=
  ⟨src, miniSearch src⟩

/-- Value stored in an operand slot of a `ScanRule`, and equally a rule node
itself: Python's `left`/`right` fields hold `None`, a compiled `re.Pattern`,
or a nested `ScanRule`; a `ScanRule` is the triple `(left, operator, right)`.
`rule .nil none .nil` is the freshly constructed `ScanRule()`. -/
inductive Operand where
  | nil : Operand
  | pat : RePattern → Operand
  | sub : Operand → Option Op → Operand → Operand

/-- Python truthiness of an operand slot: `None` is falsy, a compiled
pattern and a `ScanRule` instance are truthy. -/
def Operand.isSet : Operand → Bool
  | .nil => false
  | _ => true

/-- Left operand slot of a rule node (`self.left`). -/
def Operand.leftOf : Operand → Operand
  | .sub l _ _ => l
  | _ => .nil

/-- Right operand slot of a rule node (`self.right`). -/
def Operand.rightOf : Operand → Operand
  | .sub _ _ r => r
  | _ => .nil

/-- Errors raised while parsing a definition (all `ValueError` in the
source, distinguished here by message, plus the unhandled `IndexError` of
popping past the root and the `assert` at the end of `_parse`). -/
inductive PErr where
  | unterminatedLiteral (off : Nat)
  | expectedOperator (off : Nat)
  | malformedDefinition
  | extraOperand
  | extraOperator
  | operatorBeforeLeft
  | misplacedGroup
  | unclosedGroup
  | stackUnderflow
  | assertionFailed
  | internalError
deriving DecidableEq, Repr

/-- Exceptions that `ScanRule.__call__` can raise at evaluation time:
calling a `None` operand, `.groups()` on a non-Match, indexing an empty
groups tuple. -/
inductive EvalErr where
  | typeError
  | attributeError
  | indexError
deriving DecidableEq, Repr

/-- Python value produced by `ScanRule.__call__`: `None`, a `re.Match`, a
`bool` (from `NOT`), or a group string (from `FROM`). -/
inductive PyVal where
  | vNone : PyVal
  | vMatch : MatchData → PyVal
  | vBool : Bool → PyVal
  | vStr : List Char → PyVal
deriving DecidableEq, Repr

/-- Python truthiness of an evaluation result: `None` is falsy, a `Match`
is truthy, a `bool` is itself, a string is truthy iff nonempty. -/
def truthy : PyVal → Bool
  | .vNone => false
  | .vMatch _ => true
  | .vBool b => b
  | .vStr s => !s.isEmpty

/-- Lifts `Match.groups()[i]` (a string or `None`) to a `PyVal`. -/
def optStr : Option (List Char) → PyVal
  | some s => .vStr s
  | none => .vNone

/-- Evaluation, `ScanRule.__call__` together with its inner
`call_or_match`: a compiled pattern is searched against the content, a rule
node dispatches on its operator, and a `None` operand raises `TypeError`
when called. -/
def callRule : Operand → List Char → Except EvalErr PyVal
  | .nil, _ => .error .typeError
  | .pat p, c =>
    .ok (match p.search c with
         | some m => .vMatch m
         | none => .vNone)
  | .sub l o r, c =>
    match o with
    | none => callRule l c
    | some .AND => (callRule l c).bind (fun _ => callRule r c)
    | some .OR =>
      (callRule l c).bind (fun lv => if truthy lv then .ok lv else callRule r c)
    | some .NOT => (callRule r c).map (fun rv => .vBool (!truthy rv))
    | some .FROM =>
      (callRule r c).bind (fun rv =>
        if truthy rv then
          match rv with
          | .vMatch m =>
            match m.groups with
            | _ :: g1 :: _ => .ok (optStr g1)
            | [g0] => .ok (optStr g0)
            | [] => .error .indexError
          | _ => .error .attributeError
        else .ok .vNone)

/-- Outcome of evaluating a node: `some b` when `__call__` returns a value
(`b` is its truthiness, i.e. whether the node matched), `none` when it
raises. -/
def nodeMatches (n : Operand) (c : List Char) : Option Bool :=
  match callRule n c with
  | .ok v => some (truthy v)
  | .error _ => none

/-- Tokens yielded by `_lex`: a backtick literal (its source, the text
between the backticks), an uppercased operator keyword, or a parenthesis. -/
inductive Tok where
  | pat : List Char → Tok
  | op : Op → Tok
  | lparen : Tok
  | rparen : Tok
deriving DecidableEq, Repr

/-- Python `\s` / `str.isspace` for the ASCII whitespace characters. -/
def isSpaceChar (c : Char) : Bool :=
  c = ' ' || c = '\t' || c = '\n' || c = '\r' || c = '\x0b' || c = '\x0c'

/-- Python `\w`: letters, digits and underscore (ASCII). -/
def isWordChar (c : Char) : Bool :=
  ('a' ≤ c && c ≤ 'z') || ('A' ≤ c && c ≤ 'Z') || ('0' ≤ c && c ≤ '9') || c = '_'

/-- Lowercasing of a Python string (`str.lower`, ASCII fragment). -/
def lowerList (l : List Char) : List Char :=
  l.map Char.toLower

/-- The keyword, if any, that a run of word characters spells
case-insensitively (`OPERATOR_PAT` alternatives). -/
def keywordOf (acc : List Char) : Option Op :=
  let l := lowerList acc
  if l = ['a', 'n', 'd'] then some .AND
  else if l = ['o', 'r'] then some .OR
  else if l = ['n', 'o', 't'] then some .NOT
  else if l = ['f', 'r', 'o', 'm'] then some .FROM
  else none

/-- State of the tokenizer between characters: scanning normally, inside a
backtick literal opened at a given offset, or inside a run of word
characters started at a given offset (a candidate operator keyword). -/
inductive LexState where
  | std : LexState
  | lit : Nat → List Char → LexState
  | word : Nat → List Char → LexState
deriving DecidableEq, Repr

/-- Tokenizer `_lex`, as a character-at-a-time scan.  A backtick literal
runs to the next backtick (`str.find`), an unterminated one is an error at
its opening offset.  An operator keyword must be followed by a non-word
character, which `OPERATOR_PAT`'s match consumes (`i = m.end()` steps past
the `\W`); a keyword at end of input has no such character and is the
"expected boolean operator" error at the position where the match was
attempted, exactly as in the source. -/
def lexAux : List Char → Nat → LexState → Except PErr (List Tok)
  | [], _, .std => .ok []
  | [], _, .lit start _ => .error (.unterminatedLiteral start)
  | [], _, .word start _ => .error (.expectedOperator start)
  | c :: rest, i, .std =>
    if isSpaceChar c then lexAux rest (i + 1) .std
    else if c = btChar then lexAux rest (i + 1) (.lit i [])
    else if c = '(' then (lexAux rest (i + 1) .std).map (fun ts => .lparen :: ts)
    else if c = ')' then (lexAux rest (i + 1) .std).map (fun ts => .rparen :: ts)
    else if isWordChar c then lexAux rest (i + 1) (.word i [c])
    else .error (.expectedOperator i)
  | c :: rest, i, .lit start acc =>
    if c = btChar then (lexAux rest (i + 1) .std).map (fun ts => .pat acc :: ts)
    else lexAux rest (i + 1) (.lit start (acc ++ [c]))
  | c :: rest, i, .word start acc =>
    if isWordChar c then lexAux rest (i + 1) (.word start (acc ++ [c]))
    else
      match keywordOf acc with
      | some o => (lexAux rest (i + 1) .std).map (fun ts => .op o :: ts)
      | none => .error (.expectedOperator start)

/-- The freshly constructed `ScanRule()` pushed on the parser stack. -/
def emptyRule : Operand := .sub .nil none .nil

/-- Attachment of an operand, `ScanRule.set_next_operand`: with an operator
pending it fills an empty `right` slot or raises "extra operand"; with no
operator it assigns `left` (overwriting any previous value, as the source
does). -/
def setNextOperand (r : Operand) (opd : Operand) : Except PErr Operand :=
  match r with
  | .sub l (some o) ri =>
    match ri with
    | .nil => .ok (.sub l (some o) opd)
    | _ => .error .extraOperand
  | .sub _ none ri => .ok (.sub opd none ri)
  | _ => .error .internalError

/-- Operator assignment, `ScanRule.set_operator`: raises "extra operator"
if one is already set, and "can't have OP before left operand" for a binary
operator with no left operand. -/
def setOperator (r : Operand) (o : Op) : Except PErr Operand :=
  match r with
  | .sub l oldOp ri =>
    if oldOp.isSome then .error .extraOperator
    else if !l.isSet && o.isBinary then .error .operatorBeforeLeft
    else .ok (.sub l (some o) ri)
  | _ => .error .internalError

/-- The `needs_operator` property: Python `self.left and self.operator`,
truthy exactly when both are set. -/
def needsOperator (r : Operand) : Bool :=
  match r with
  | .sub l o _ => l.isSet && o.isSome
  | _ => false

/-- One token of `_parse`'s loop acting on the stack of in-progress nodes
(top of stack first; the `rule` variable of the source is the top).  On `(`
the source raises "group must be preceded by an operator" when the current
node's `right` is set or `needs_operator` holds; on `)` it pops the child
and either replaces a left-less parent by it (trivial-group collapse) or
attaches it as the next operand.  Popping with no parent left is the
source's unhandled `IndexError` on `stack[-1]`. -/
def stepTok (st : List Operand) (t : Tok) : Except PErr (List Operand) :=
  match t, st with
  | .op o, r :: rest => (setOperator r o).map (fun r2 => r2 :: rest)
  | .pat src, r :: rest =>
    (setNextOperand r (.pat (reCompile src))).map (fun r2 => r2 :: rest)
  | .lparen, r :: _ =>
    if (Operand.rightOf r).isSet || needsOperator r then .error .misplacedGroup
    else .ok (emptyRule :: st)
  | .rparen, child :: parent :: rest =>
    if (Operand.leftOf parent).isSet then
      (setNextOperand parent child).map (fun p2 => p2 :: rest)
    else .ok (child :: rest)
  | .rparen, _ => .error .stackUnderflow
  | _, [] => .error .stackUnderflow

/-- The token loop of `_parse`. -/
def runSteps : List Tok → List Operand → Except PErr (List Operand)
  | [], st => .ok st
  | t :: ts, st => (stepTok st t).bind (runSteps ts)

/-- End-of-input checks of `_parse`: more than one node on the stack is
"unclosed group"; then `if rule.needs_operator: assert isinstance(rule.left,
re.Pattern)` — a failure of that assert is an `AssertionError`. -/
def finishParse : List Operand → Except PErr Operand
  | [r] =>
    if needsOperator r then
      match r with
      | .sub (.pat _) _ _ => .ok r
      | _ => .error .assertionFailed
    else .ok r
  | _ :: _ :: _ => .error .unclosedGroup
  | [] => .error .stackUnderflow

/-- The `_parse` routine on an already-lexed token sequence: run the loop
starting from a single fresh node, then apply the end-of-input checks. -/
def parseTokens (ts : List Tok) : Except PErr Operand :=
  (runSteps ts [emptyRule]).bind finishParse

/-- Lexing followed by `_parse`, applied to an expression string. -/
def parseExprString (s : List Char) : Except PErr Operand :=
  (lexAux s 0 .std).bind parseTokens

/-- Evaluation of the rule parsed from an expression string against a
content string; `none` when the expression does not parse. -/
def parseEval (s c : List Char) : Option (Except EvalErr PyVal) :=
  match parseExprString s with
  | .ok n => some (callRule n c)
  | .error _ => none

/-- Characters admitted in a rule name by `NAME_EXPR_PAT`'s class
`[-_.a-z0-9]` under `re.I`. -/
def nameChar (c : Char) : Bool :=
  ('a' ≤ c && c ≤ 'z') || ('A' ≤ c && c ≤ 'Z') || ('0' ≤ c && c ≤ '9') ||
    c = '-' || c = '_' || c = '.'

/-- Python `str.strip`: whitespace removed from both ends. -/
def pyStrip (l : List Char) : List Char :=
  ((l.dropWhile isSpaceChar).reverse.dropWhile isSpaceChar).reverse

/-- The definition-splitting regex `NAME_EXPR_PAT` applied to the stripped
definition followed by `_parse` of the expression part, i.e. the body of
`ScanRule.parse`: extract a nonempty run of name characters, optional
whitespace, a colon, optional whitespace, and the nonempty expression (the
rest of the line — `.` does not cross a newline).  Returns the lowercased
name (the registry key) and the parsed node. -/
def parseDefinition (d : List Char) : Except PErr (List Char × Operand) :=
  let s := pyStrip d
  let name := s.takeWhile nameChar
  if name = [] then .error .malformedDefinition
  else
    match (s.dropWhile nameChar).dropWhile isSpaceChar with
    | ':' :: r3 =>
      let expr := (r3.dropWhile isSpaceChar).takeWhile (fun c => c ≠ '\n')
      if expr = [] then .error .malformedDefinition
      else
        (lexAux expr 0 .std).bind (fun ts =>
          (parseTokens ts).map (fun node => (lowerList name, node)))
    | _ => .error .malformedDefinition

/-- The process-wide registry `ScanRule.ALL`, modelled as a map from
(lowercased) name to node. -/
def Registry : Type := List (List Char × Operand)

/-- Dictionary assignment `ScanRule.ALL[name] = node`: the new binding
replaces any previous binding of the same key. -/
def registryInsert (n : List Char) (node : Operand) (reg : Registry) : Registry :=
  (n, node) :: reg.filter (fun p => decide (p.1 ≠ n))

/-- Modelled from the spec: the `lookup(name)` read operation of §6 is
declared in the spec but absent from `src/` (the source exposes only the
raw dict `ScanRule.ALL`); per the spec's any-case lookup contract, the
queried name is normalized to lowercase and looked up in the registry. -/
def lookupRule (name : List Char) (reg : Registry) : Option Operand :=
  (reg.find? (fun p => decide (p.1 = lowerList name))).map (fun p => p.2)

/-- Top-level `ScanRule.parse` including its registry side effect: on
success the node is registered under the lowercased name and returned; on
any error the exception propagates and the registry is untouched. -/
def runDefinition (d : List Char) (reg : Registry) :
    Registry × Except PErr Operand :=
  match parseDefinition d with
  | .ok (n, node) => (registryInsert n node reg, .ok node)
  | .error e => (reg, .error e)

/-- Erases the recorded start offsets from a lexer state, keeping its shape. -/
def stripPos : LexState → LexState
  | .std => .std
  | .lit _ acc => .lit 0 acc
  | .word _ acc => .word 0 acc

/-! ## Claim theorems -/

/-- C1: evaluation of a `FROM` node.  The claim says the left operand is
searched within the right operand's evidence and the node matches iff it
succeeds there.  The code instead never consults `left`: for the rule
`` `zzz` FROM `(abc)` `` on content `"xxabcyy"`, the right pattern matches
with capture group `"abc"`, and evaluation returns that group's text (a
truthy value, so the node matches) even though `zzz` occurs neither in the
evidence `"abc"` nor anywhere in the content, so per the claim (and the
class docstring's description of the evidence-scoped operator) the node
must not match. -/
theorem c1_from_eval_at_failing_input :
    (runDefinition ("in_rule: `zzz` from `(abc)`".toList) []).2 =
      .ok (.sub (.pat (reCompile ("zzz".toList))) (some .FROM)
        (.pat (reCompile ("(abc)".toList)))) ∧
    callRule (.sub (.pat (reCompile ("zzz".toList))) (some .FROM)
        (.pat (reCompile ("(abc)".toList)))) ("xxabcyy".toList) =
      .ok (.vStr ("abc".toList)) ∧
    nodeMatches (.sub (.pat (reCompile ("zzz".toList))) (some .FROM)
        (.pat (reCompile ("(abc)".toList)))) ("xxabcyy".toList) = some true ∧
    (reCompile ("zzz".toList)).search ("abc".toList) = none ∧
    (reCompile ("zzz".toList)).search ("xxabcyy".toList) = none :=
  ⟨rfl, rfl, rfl, rfl, rfl⟩

/-- C2: evaluation of an `AND` node.  The claim (and the docstring's
"matches according to boolean logic") requires both operands to match.  The
code evaluates the left operand but ignores its result and returns the
right operand's result unconditionally: on content where `abc` does not
occur but `xyz` does, the rule `` `abc` AND `xyz` `` nevertheless matches. -/
theorem c2_and_eval_at_failing_input :
    (runDefinition ("and_rule: `abc` and `xyz`".toList) []).2 =
      .ok (.sub (.pat (reCompile ("abc".toList))) (some .AND)
        (.pat (reCompile ("xyz".toList)))) ∧
    nodeMatches (.sub (.pat (reCompile ("abc".toList))) (some .AND)
        (.pat (reCompile ("xyz".toList))))
      ("this is abd; after, we have xyz.".toList) = some true ∧
    (reCompile ("abc".toList)).search
      ("this is abd; after, we have xyz.".toList) = none :=
  ⟨rfl, rfl, rfl⟩

/-- C3: legality of an opening parenthesis.  The claim says a group is
legal exactly when it is the first operand or immediately follows an
operator (including a binary operator whose left operand is filled).  The
code's `needs_operator` is `left and operator`, so `(` after a binary
operator with a filled left operand raises "group must be preceded by an
operator" (first conjunct — even though the group is preceded by an
operator), while `(` directly after a bare operand with no operator is
accepted without error (second conjunct), the parenthesized group silently
replacing the earlier operand. -/
theorem c3_group_parse_at_failing_input :
    parseDefinition ("r: `a` and (`b`)".toList) = .error .misplacedGroup ∧
    parseDefinition ("r2: `a` (`b`)".toList) =
      .ok ("r2".toList,
        .sub (.sub (.pat (reCompile ("b".toList))) none .nil) none .nil) :=
  ⟨rfl, rfl⟩

/-- C4: evaluation is claimed never to raise for a successfully parsed
rule.  The definition `x: `a` from `b`` parses successfully (the right
pattern `b` is a valid regex with zero capture groups), but evaluating it
on content `"b"` raises `IndexError`: the right operand matches, and the
code indexes `groups()[0]` on an empty groups tuple. -/
theorem c4_eval_raises_at_failing_input :
    (runDefinition ("x: `a` from `b`".toList) []).2 =
      .ok (.sub (.pat (reCompile ("a".toList))) (some .FROM)
        (.pat (reCompile ("b".toList)))) ∧
    callRule (.sub (.pat (reCompile ("a".toList))) (some .FROM)
        (.pat (reCompile ("b".toList)))) ("b".toList) = .error .indexError :=
  ⟨rfl, rfl⟩

/-- C5: a pattern literal arriving at a node whose left operand is filled
and which has no pending operator is claimed to be an "extra operand"
error.  The code's `set_next_operand` instead silently overwrites `left`:
`r: `a` `b`` parses successfully to a node whose left operand is the
compiled `b`, the earlier operand `a` having been discarded without any
error. -/
theorem c5_extra_operand_at_failing_input :
    parseDefinition ("r: `a` `b`".toList) =
      .ok ("r".toList, .sub (.pat (reCompile ("b".toList))) none .nil) :=
  rfl

/-! ## Helper lemmas

The lexer emits offsets only inside error payloads, so successful lexing is
independent of the starting offset; appending a `)` to a successfully lexed
expression appends an `rparen` token; and the parser's token loop acting on
the top of the stack is unaffected by extra nodes below it.  These support
the grouping claims. -/

theorem lexAux_ok_irrel : ∀ (s : List Char) (i : Nat) (st : LexState) (ts : List Tok)
    (j : Nat) (st' : LexState), stripPos st' = stripPos st →
    lexAux s i st = .ok ts → lexAux s j st' = .ok ts := by
  intro s
  induction s with
  | nil =>
    intro i st ts j st' hst h
    cases st <;> cases st' <;> simp_all [lexAux, stripPos]
  | cons c rest ih =>
    intro i st ts j st' hst h
    cases st with
    | std =>
      cases st' with
      | lit b acc' => exact absurd hst (by simp [stripPos])
      | word b acc' => exact absurd hst (by simp [stripPos])
      | std =>
        simp only [lexAux] at h ⊢
        split_ifs at h ⊢ with h1 h2 h3 h4 h5
        · exact ih (i + 1) .std ts (j + 1) .std rfl h
        · exact ih (i + 1) (.lit i []) ts (j + 1) (.lit j []) rfl h
        · cases hr : lexAux rest (i + 1) .std with
          | error e => rw [hr] at h; exact absurd h (by simp [Except.map])
          | ok ts0 =>
            rw [hr] at h
            rw [ih (i + 1) .std ts0 (j + 1) .std rfl hr]
            exact h
        · cases hr : lexAux rest (i + 1) .std with
          | error e => rw [hr] at h; exact absurd h (by simp [Except.map])
          | ok ts0 =>
            rw [hr] at h
            rw [ih (i + 1) .std ts0 (j + 1) .std rfl hr]
            exact h
        · exact ih (i + 1) (.word i [c]) ts (j + 1) (.word j [c]) rfl h
    | lit start acc =>
      cases st' with
      | std => exact absurd hst (by simp [stripPos])
      | word b acc' => exact absurd hst (by simp [stripPos])
      | lit b acc' =>
        simp only [stripPos] at hst
        injection hst with h1 h2
        subst h2
        simp only [lexAux] at h ⊢
        split_ifs at h ⊢ with hb
        · cases hr : lexAux rest (i + 1) .std with
          | error e => rw [hr] at h; exact absurd h (by simp [Except.map])
          | ok ts0 =>
            rw [hr] at h
            rw [ih (i + 1) .std ts0 (j + 1) .std rfl hr]
            exact h
        · exact ih (i + 1) (.lit start (acc' ++ [c])) ts (j + 1) (.lit b (acc' ++ [c])) rfl h
    | word start acc =>
      cases st' with
      | std => exact absurd hst (by simp [stripPos])
      | lit b acc' => exact absurd hst (by simp [stripPos])
      | word b acc' =>
        simp only [stripPos] at hst
        injection hst with h1 h2
        subst h2
        simp only [lexAux] at h ⊢
        split_ifs at h ⊢ with hw
        · exact ih (i + 1) (.word start (acc' ++ [c])) ts (j + 1) (.word b (acc' ++ [c])) rfl h
        · cases hk : keywordOf acc' with
          | none =>
            simp only [hk] at h
            exact absurd h (by simp)
          | some o =>
            simp only [hk] at h ⊢
            cases hr : lexAux rest (i + 1) .std with
            | error e => rw [hr] at h; exact absurd h (by simp [Except.map])
            | ok ts0 =>
              rw [hr] at h
              rw [ih (i + 1) .std ts0 (j + 1) .std rfl hr]
              exact h

theorem lexAux_append_rparen : ∀ (s : List Char) (i : Nat) (st : LexState) (ts : List Tok),
    lexAux s i st = .ok ts →
    lexAux (s ++ [')']) i st = .ok (ts ++ [.rparen]) := by
  intro s
  induction s with
  | nil =>
    intro i st ts h
    cases st with
    | std =>
      simp only [lexAux] at h
      injection h with h
      subst h
      rfl
    | lit start acc => exact absurd h (by simp [lexAux])
    | word start acc => exact absurd h (by simp [lexAux])
  | cons c rest ih =>
    intro i st ts h
    rw [List.cons_append]
    cases st with
    | std =>
      simp only [lexAux] at h ⊢
      split_ifs at h ⊢ with h1 h2 h3 h4 h5
      · exact ih (i + 1) .std ts h
      · exact ih (i + 1) (.lit i []) ts h
      · cases hr : lexAux rest (i + 1) .std with
        | error e => rw [hr] at h; exact absurd h (by simp [Except.map])
        | ok ts0 =>
          rw [hr] at h
          rw [ih (i + 1) .std ts0 hr]
          simp only [Except.map] at h ⊢
          injection h with h
          subst h
          rfl
      · cases hr : lexAux rest (i + 1) .std with
        | error e => rw [hr] at h; exact absurd h (by simp [Except.map])
        | ok ts0 =>
          rw [hr] at h
          rw [ih (i + 1) .std ts0 hr]
          simp only [Except.map] at h ⊢
          injection h with h
          subst h
          rfl
      · exact ih (i + 1) (.word i [c]) ts h
    | lit start acc =>
      simp only [lexAux] at h ⊢
      split_ifs at h ⊢ with h1
      · cases hr : lexAux rest (i + 1) .std with
        | error e => rw [hr] at h; exact absurd h (by simp [Except.map])
        | ok ts0 =>
          rw [hr] at h
          rw [ih (i + 1) .std ts0 hr]
          simp only [Except.map] at h ⊢
          injection h with h
          subst h
          rfl
      · exact ih (i + 1) (.lit start (acc ++ [c])) ts h
    | word start acc =>
      simp only [lexAux] at h ⊢
      split_ifs at h ⊢ with h1
      · exact ih (i + 1) (.word start (acc ++ [c])) ts h
      · cases hk : keywordOf acc with
        | none =>
          simp only [hk] at h
          exact absurd h (by simp)
        | some o =>
          simp only [hk] at h ⊢
          cases hr : lexAux rest (i + 1) .std with
          | error e => rw [hr] at h; exact absurd h (by simp [Except.map])
          | ok ts0 =>
            rw [hr] at h
            rw [ih (i + 1) .std ts0 hr]
            simp only [Except.map] at h ⊢
            injection h with h
            subst h
            rfl

theorem runSteps_append : ∀ (ts1 ts2 : List Tok) (st : List Operand),
    runSteps (ts1 ++ ts2) st = (runSteps ts1 st).bind (runSteps ts2) := by
  intro ts1
  induction ts1 with
  | nil => intro ts2 st; rfl
  | cons t ts1 ih =>
    intro ts2 st
    rw [List.cons_append]
    show (stepTok st t).bind (runSteps (ts1 ++ ts2)) =
      ((stepTok st t).bind (runSteps ts1)).bind (runSteps ts2)
    cases stepTok st t with
    | error e => rfl
    | ok st1 => exact ih ts2 st1

theorem stepTok_extend (t : Tok) (st st2 rest : List Operand)
    (h : stepTok st t = .ok st2) :
    stepTok (st ++ rest) t = .ok (st2 ++ rest) := by
  cases t with
  | op o =>
    cases st with
    | nil => exact absurd h (by simp [stepTok])
    | cons r tail =>
      have h' : (setOperator r o).map (fun x => x :: tail) = .ok st2 := h
      show (setOperator r o).map (fun x => x :: (tail ++ rest)) = .ok (st2 ++ rest)
      cases hs : setOperator r o with
      | error e => rw [hs] at h'; exact absurd h' (by simp [Except.map])
      | ok r2 =>
        rw [hs] at h'
        have h2 : Except.ok (ε := PErr) (r2 :: tail) = .ok st2 := h'
        injection h2 with h2
        subst h2
        rfl
  | pat src =>
    cases st with
    | nil => exact absurd h (by simp [stepTok])
    | cons r tail =>
      have h' : (setNextOperand r (.pat (reCompile src))).map (fun x => x :: tail) = .ok st2 := h
      show (setNextOperand r (.pat (reCompile src))).map (fun x => x :: (tail ++ rest)) =
        .ok (st2 ++ rest)
      cases hs : setNextOperand r (.pat (reCompile src)) with
      | error e => rw [hs] at h'; exact absurd h' (by simp [Except.map])
      | ok r2 =>
        rw [hs] at h'
        have h2 : Except.ok (ε := PErr) (r2 :: tail) = .ok st2 := h'
        injection h2 with h2
        subst h2
        rfl
  | lparen =>
    cases st with
    | nil => exact absurd h (by simp [stepTok])
    | cons r tail =>
      have h' : (if (Operand.rightOf r).isSet || needsOperator r then
          Except.error (α := List Operand) PErr.misplacedGroup
          else .ok (emptyRule :: r :: tail)) = .ok st2 := h
      show (if (Operand.rightOf r).isSet || needsOperator r then
          Except.error (α := List Operand) PErr.misplacedGroup
          else .ok (emptyRule :: r :: (tail ++ rest))) = .ok (st2 ++ rest)
      split_ifs at h' ⊢ with h1
      injection h' with h'
      subst h'
      rfl
  | rparen =>
    cases st with
    | nil => exact absurd h (by simp [stepTok])
    | cons child st' =>
      cases st' with
      | nil => exact absurd h (by simp [stepTok])
      | cons parent tail =>
        have h' : (if (Operand.leftOf parent).isSet then
            (setNextOperand parent child).map (fun x => x :: tail)
            else .ok (child :: tail)) = .ok st2 := h
        show (if (Operand.leftOf parent).isSet then
            (setNextOperand parent child).map (fun x => x :: (tail ++ rest))
            else .ok (child :: (tail ++ rest))) = .ok (st2 ++ rest)
        split_ifs at h' ⊢ with h1
        · cases hs : setNextOperand parent child with
          | error e => rw [hs] at h'; exact absurd h' (by simp [Except.map])
          | ok p2 =>
            rw [hs] at h'
            have h2 : Except.ok (ε := PErr) (p2 :: tail) = .ok st2 := h'
            injection h2 with h2
            subst h2
            rfl
        · injection h' with h'
          subst h'
          rfl

theorem runSteps_extend : ∀ (ts : List Tok) (st st2 rest : List Operand),
    runSteps ts st = .ok st2 → runSteps ts (st ++ rest) = .ok (st2 ++ rest) := by
  intro ts
  induction ts with
  | nil =>
    intro st st2 rest h
    simp only [runSteps] at h ⊢
    injection h with h
    subst h
    rfl
  | cons t ts ih =>
    intro st st2 rest h
    simp only [runSteps] at h ⊢
    cases hs : stepTok st t with
    | error e => rw [hs] at h; exact Except.noConfusion h
    | ok st1 =>
      rw [hs] at h
      rw [stepTok_extend t st st1 rest hs]
      exact ih st1 st2 rest h

theorem finishParse_ok (st : List Operand) (n : Operand)
    (h : finishParse st = .ok n) : st = [n] := by
  cases st with
  | nil => exact absurd h (by simp [finishParse])
  | cons r st' =>
    cases st' with
    | nil =>
      simp only [finishParse] at h
      split_ifs at h with h1
      · cases r with
        | nil => exact absurd h (by simp)
        | pat p => exact absurd h (by simp)
        | sub l o ri =>
          cases l with
          | nil => exact absurd h (by simp)
          | sub a b c => exact absurd h (by simp)
          | pat p =>
            injection h with h
            subst h
            rfl
      · injection h with h
        subst h
        rfl
    | cons r2 st'' => exact absurd h (by simp [finishParse])

theorem parseTokens_ok (ts : List Tok) (n : Operand) (h : parseTokens ts = .ok n) :
    runSteps ts [emptyRule] = .ok [n] ∧ finishParse [n] = .ok n := by
  unfold parseTokens at h
  cases hr : runSteps ts [emptyRule] with
  | error e => rw [hr] at h; exact Except.noConfusion h
  | ok st1 =>
    rw [hr] at h
    have hf : finishParse st1 = .ok n := h
    have he := finishParse_ok st1 n hf
    subst he
    exact ⟨rfl, hf⟩

theorem parseExprString_ok (s : List Char) (n : Operand)
    (h : parseExprString s = .ok n) :
    ∃ ts, lexAux s 0 .std = .ok ts ∧ parseTokens ts = .ok n := by
  unfold parseExprString at h
  cases hl : lexAux s 0 .std with
  | error e => rw [hl] at h; exact Except.noConfusion h
  | ok ts => rw [hl] at h; exact ⟨ts, rfl, h⟩

theorem lexAux_lit_unterminated : ∀ (rest : List Char) (i start : Nat) (acc : List Char),
    btChar ∉ rest →
    lexAux rest i (.lit start acc) = .error (.unterminatedLiteral start) := by
  intro rest
  induction rest with
  | nil => intro i start acc h; rfl
  | cons c t ih =>
    intro i start acc h
    have hc : ¬(c = btChar) := fun hh => h (by rw [hh] at *; exact List.mem_cons_self btChar t)
    have ht : btChar ∉ t := fun hh => h (List.mem_cons_of_mem c hh)
    simp only [lexAux]
    rw [if_neg hc]
    exact ih (i + 1) start (acc ++ [c]) ht

theorem lexAux_open_unterminated (rest : List Char) (i : Nat) (h : btChar ∉ rest) :
    lexAux (btChar :: rest) i .std = .error (.unterminatedLiteral i) := by
  show lexAux rest (i + 1) (.lit i []) = _
  exact lexAux_lit_unterminated rest (i + 1) i [] h

theorem takeWhile_append_block (p : Char → Bool) (xs : List Char) (c : Char)
    (ys : List Char) (hxs : ∀ x ∈ xs, p x = true) (hc : p c = false) :
    (xs ++ c :: ys).takeWhile p = xs ∧ (xs ++ c :: ys).dropWhile p = c :: ys := by
  induction xs with
  | nil =>
    simp only [List.nil_append]
    exact ⟨by simp [List.takeWhile_cons, hc], by simp [List.dropWhile_cons, hc]⟩
  | cons x xs ih =>
    have hx : p x = true := hxs x (List.mem_cons_self x xs)
    have hxs' : ∀ y ∈ xs, p y = true := fun y hy => hxs y (List.mem_cons_of_mem x hy)
    obtain ⟨iht, ihd⟩ := ih hxs'
    constructor
    · simp only [List.cons_append, List.takeWhile_cons, hx, if_true]
      rw [iht]
    · simp only [List.cons_append, List.dropWhile_cons, hx, if_true]
      rw [ihd]

theorem takeWhile_ne_all (c0 : Char) (l : List Char) (h : c0 ∉ l) :
    l.takeWhile (fun c => decide (¬(c = c0))) = l := by
  induction l with
  | nil => rfl
  | cons x xs ih =>
    have hx : ¬(x = c0) := fun hh => h (by rw [hh] at *; exact List.mem_cons_self c0 xs)
    have hxs : c0 ∉ xs := fun hh => h (List.mem_cons_of_mem x hh)
    simp only [List.takeWhile_cons, decide_eq_true_eq]
    rw [if_pos hx, ih hxs]

/-- C6: a `NOT` node evaluates only its right operand — the left operand is
arbitrary (it may even be `None`, which would raise if it were ever
evaluated) and does not influence the result — and the node's result is the
boolean negation of the right operand's truthiness: the node matches
exactly when the right operand does not match, and the result is a bare
`bool` carrying no evidence span. -/
theorem c6_not_only_right (l r : Operand) (c : List Char) (rv : PyVal)
    (h : callRule r c = .ok rv) :
    callRule (.sub l (some .NOT) r) c = .ok (.vBool (!truthy rv)) := by
  show (callRule r c).map (fun rv => PyVal.vBool (!truthy rv)) = _
  rw [h]
  rfl

theorem c6_not_only_right_witness :
    callRule (.sub .nil (some .NOT) (.pat (reCompile ("xyz".toList))))
      ("this is a test.".toList) = .ok (.vBool true) :=
  c6_not_only_right .nil (.pat (reCompile ("xyz".toList)))
    ("this is a test.".toList) .vNone rfl

/-- C7: grouping idempotence.  For any expression `P` that parses to a node
`n`, the parenthesized expression `( P )` parses to the very same node —
the intermediate group node, having no left operand when its `)` arrives,
is collapsed away — and therefore evaluates identically to `P` alone on
every content string. -/
theorem c7_group_idempotence (expr : List Char) (n : Operand)
    (h : parseExprString expr = .ok n) :
    parseExprString ('(' :: (expr ++ [')'])) = .ok n ∧
    ∀ c, parseEval ('(' :: (expr ++ [')'])) c = parseEval expr c := by
  obtain ⟨ts, hlex, hpt⟩ := parseExprString_ok expr n h
  obtain ⟨hrun, hfin⟩ := parseTokens_ok ts n hpt
  have hlex1 : lexAux expr 1 .std = .ok ts :=
    lexAux_ok_irrel expr 0 .std ts 1 .std rfl hlex
  have hlex2 : lexAux (expr ++ [')']) 1 .std = .ok (ts ++ [.rparen]) :=
    lexAux_append_rparen expr 1 .std ts hlex1
  have hw : parseExprString ('(' :: (expr ++ [')'])) =
      parseTokens (Tok.lparen :: (ts ++ [Tok.rparen])) := by
    unfold parseExprString
    have h0 : lexAux ('(' :: (expr ++ [')'])) 0 .std =
        (lexAux (expr ++ [')']) 1 .std).map (fun l => Tok.lparen :: l) := rfl
    rw [h0, hlex2]
    rfl
  have hsteps : runSteps (Tok.lparen :: (ts ++ [Tok.rparen])) [emptyRule] = .ok [n] := by
    have h1 : runSteps (Tok.lparen :: (ts ++ [Tok.rparen])) [emptyRule] =
        runSteps (ts ++ [Tok.rparen]) [emptyRule, emptyRule] := rfl
    rw [h1, runSteps_append]
    have h2 : runSteps ts [emptyRule, emptyRule] = .ok [n, emptyRule] :=
      runSteps_extend ts [emptyRule] [n] [emptyRule] hrun
    rw [h2]
    rfl
  have hwp : parseTokens (Tok.lparen :: (ts ++ [Tok.rparen])) = .ok n := by
    unfold parseTokens
    rw [hsteps]
    exact hfin
  refine ⟨hw.trans hwp, ?_⟩
  intro c
  unfold parseEval
  simp only [hw.trans hwp, h]

theorem c7_group_idempotence_witness :
    parseExprString ("(`test`)".toList) = parseExprString ("`test`".toList) ∧
    parseEval ("(`test`)".toList) ("this is a test.".toList) =
      parseEval ("`test`".toList) ("this is a test.".toList) := by
  have h := c7_group_idempotence ("`test`".toList)
    (.sub (.pat (reCompile ("test".toList))) none .nil) rfl
  exact ⟨h.1.trans rfl, h.2 ("this is a test.".toList)⟩

/-- C8: after a successful parse of a definition, the registry maps the
lowercased name to the node that parse returned, looking the name up in any
letter case (any `q` whose lowercasing is the stored key) yields that same
node, and re-defining the same name succeeds and overwrites: the new node
is returned and is what lookup finds afterwards.  The `lookup` operation
itself is modelled from the spec, the source exposing only the raw dict. -/
theorem c8_registry_lowercase_lookup (d : List Char) (reg : Registry)
    (n : List Char) (node : Operand)
    (h : parseDefinition d = .ok (n, node)) :
    runDefinition d reg = (registryInsert n node reg, .ok node) ∧
    (∀ q, lowerList q = n →
      lookupRule q (registryInsert n node reg) = some node) ∧
    (∀ d2 node2, parseDefinition d2 = .ok (n, node2) →
      runDefinition d2 (registryInsert n node reg) =
        (registryInsert n node2 (registryInsert n node reg), .ok node2) ∧
      ∀ q, lowerList q = n →
        lookupRule q (registryInsert n node2 (registryInsert n node reg)) = some node2) := by
  have hl : ∀ (node' : Operand) (reg' : Registry) (q : List Char), lowerList q = n →
      lookupRule q (registryInsert n node' reg') = some node' := by
    intro node' reg' q hq
    unfold lookupRule registryInsert
    rw [hq]
    rw [List.find?_cons_of_pos]
    · rfl
    · simp
  refine ⟨?_, fun q hq => hl node reg q hq, ?_⟩
  · simp only [runDefinition, h]
  · intro d2 node2 h2
    exact ⟨by simp only [runDefinition, h2], fun q hq => hl node2 _ q hq⟩

theorem c8_registry_lowercase_lookup_witness :
    runDefinition ("R1: `x`".toList) [] =
      ([("r1".toList, Operand.sub (.pat (reCompile ("x".toList))) none .nil)],
        .ok (.sub (.pat (reCompile ("x".toList))) none .nil)) ∧
    lookupRule ("R1".toList)
        [("r1".toList, Operand.sub (.pat (reCompile ("x".toList))) none .nil)] =
      some (.sub (.pat (reCompile ("x".toList))) none .nil) ∧
    runDefinition ("r1: `y`".toList)
        [("r1".toList, Operand.sub (.pat (reCompile ("x".toList))) none .nil)] =
      ([("r1".toList, Operand.sub (.pat (reCompile ("y".toList))) none .nil)],
        .ok (.sub (.pat (reCompile ("y".toList))) none .nil)) ∧
    lookupRule ("r1".toList)
        [("r1".toList, Operand.sub (.pat (reCompile ("y".toList))) none .nil)] =
      some (.sub (.pat (reCompile ("y".toList))) none .nil) := by
  have h := c8_registry_lowercase_lookup ("R1: `x`".toList) [] ("r1".toList)
    (.sub (.pat (reCompile ("x".toList))) none .nil) rfl
  obtain ⟨h1, h2, h3⟩ := h
  have h4 := h3 ("r1: `y`".toList)
    (.sub (.pat (reCompile ("y".toList))) none .nil) rfl
  exact ⟨h1, h2 ("R1".toList) rfl, h4.1, h4.2 ("r1".toList) rfl⟩

/-- C9: an opening backtick with no matching closing backtick before end of
input makes the definition fail with the unterminated-literal error carrying
the opening backtick's offset, and no rule is registered.  The first
conjunct is the general lexer fact: from any scanning position (any offset
`i`, any reachable state) an opening backtick whose remainder contains no
closing backtick yields exactly that error at offset `i`.  The second
conjunct lifts it to whole definitions `name:<spaces>` followed by the
unterminated literal: parse returns the error with the offset of the
opening backtick within the expression (0 here, offsets being relative to
the expression part, as in the source) and the registry is returned
unchanged. -/
theorem c9_unterminated_literal :
    (∀ (rest : List Char) (i : Nat), btChar ∉ rest →
      lexAux (btChar :: rest) i .std = .error (.unterminatedLiteral i)) ∧
    (∀ (name sp rest : List Char) (reg : Registry),
      pyStrip (name ++ ':' :: (sp ++ btChar :: rest)) =
        name ++ ':' :: (sp ++ btChar :: rest) →
      (∀ x ∈ name, nameChar x = true) → name ≠ [] →
      (∀ x ∈ sp, isSpaceChar x = true) →
      btChar ∉ rest → '\n' ∉ rest →
      runDefinition (name ++ ':' :: (sp ++ btChar :: rest)) reg =
        (reg, .error (.unterminatedLiteral 0))) := by
  refine ⟨fun rest i h => lexAux_open_unterminated rest i h, ?_⟩
  intro name sp rest reg hstrip hname hne hsp hbt hnl
  obtain ⟨ht1, hd1⟩ := takeWhile_append_block nameChar name ':' (sp ++ btChar :: rest)
    hname (by decide)
  obtain ⟨-, hd2⟩ := takeWhile_append_block isSpaceChar sp btChar rest hsp (by decide)
  have hpd : parseDefinition (name ++ ':' :: (sp ++ btChar :: rest)) =
      .error (.unterminatedLiteral 0) := by
    simp only [parseDefinition, hstrip, ht1, hd1]
    rw [if_neg hne]
    have hds : (':' :: (sp ++ btChar :: rest)).dropWhile isSpaceChar =
        ':' :: (sp ++ btChar :: rest) := by
      simp only [List.dropWhile_cons]
      rw [if_neg (by decide)]
    rw [hds]
    simp only [hd2]
    have hexp : (btChar :: rest).takeWhile (fun c => decide (¬(c = '\n'))) =
        btChar :: rest := by
      refine takeWhile_ne_all '\n' (btChar :: rest) ?_
      intro hh
      rcases List.mem_cons.mp hh with h1 | h1
      · exact absurd h1.symm (by decide)
      · exact hnl h1
    rw [hexp]
    rw [if_neg (by simp)]
    rw [lexAux_open_unterminated rest 0 hbt]
    rfl
  simp only [runDefinition, hpd]

theorem c9_unterminated_literal_witness :
    runDefinition ("bad: `unterminated".toList) [] =
      ([], .error (.unterminatedLiteral 0)) :=
  c9_unterminated_literal.2 ("bad".toList) [' '] ("unterminated".toList) []
    rfl (by decide) (by decide) (by decide) (by decide) (by decide)

/-- C10: for `NOT ( E )` with the group as sole content of its context, the
node that carried the pending `NOT` operator has no left operand when the
`)` arrives, so the group-collapse step replaces it — `NOT` included — by
the group's contents: the whole expression parses to exactly the node of
`E` and evaluates identically to `E` alone on every content string. -/
theorem c10_not_group_collapse (expr : List Char) (n : Operand)
    (h : parseExprString expr = .ok n) :
    parseExprString ("not (".toList ++ (expr ++ [')'])) = .ok n ∧
    ∀ c, parseEval ("not (".toList ++ (expr ++ [')'])) c = parseEval expr c := by
  obtain ⟨ts, hlex, hpt⟩ := parseExprString_ok expr n h
  obtain ⟨hrun, hfin⟩ := parseTokens_ok ts n hpt
  have hlex1 : lexAux expr 5 .std = .ok ts :=
    lexAux_ok_irrel expr 0 .std ts 5 .std rfl hlex
  have hlex2 : lexAux (expr ++ [')']) 5 .std = .ok (ts ++ [.rparen]) :=
    lexAux_append_rparen expr 5 .std ts hlex1
  have hw : parseExprString ("not (".toList ++ (expr ++ [')'])) =
      parseTokens (Tok.op .NOT :: Tok.lparen :: (ts ++ [Tok.rparen])) := by
    unfold parseExprString
    have h0 : lexAux ("not (".toList ++ (expr ++ [')'])) 0 .std =
        ((lexAux (expr ++ [')']) 5 .std).map (fun l => Tok.lparen :: l)).map
          (fun l => Tok.op .NOT :: l) := rfl
    rw [h0, hlex2]
    rfl
  have hsteps : runSteps (Tok.op .NOT :: Tok.lparen :: (ts ++ [Tok.rparen]))
      [emptyRule] = .ok [n] := by
    have h1 : runSteps (Tok.op .NOT :: Tok.lparen :: (ts ++ [Tok.rparen])) [emptyRule] =
        runSteps (ts ++ [Tok.rparen])
          [emptyRule, .sub .nil (some .NOT) .nil] := rfl
    rw [h1, runSteps_append]
    have h2 : runSteps ts [emptyRule, .sub .nil (some .NOT) .nil] =
        .ok [n, .sub .nil (some .NOT) .nil] :=
      runSteps_extend ts [emptyRule] [n] [.sub .nil (some .NOT) .nil] hrun
    rw [h2]
    rfl
  have hwp : parseTokens (Tok.op .NOT :: Tok.lparen :: (ts ++ [Tok.rparen])) = .ok n := by
    unfold parseTokens
    rw [hsteps]
    exact hfin
  refine ⟨hw.trans hwp, ?_⟩
  intro c
  unfold parseEval
  simp only [hw.trans hwp, h]

theorem c10_not_group_collapse_witness :
    parseExprString ("not (`x` or `y`)".toList) =
      parseExprString ("`x` or `y`".toList) ∧
    parseEval ("not (`x` or `y`)".toList) ("contains y".toList) =
      parseEval ("`x` or `y`".toList) ("contains y".toList) := by
  have h := c10_not_group_collapse ("`x` or `y`".toList)
    (.sub (.pat (reCompile ("x".toList))) (some .OR) (.pat (reCompile ("y".toList)))) rfl
  exact ⟨h.1.trans rfl, h.2 ("contains y".toList)⟩
